import Mathlib

/-!
# Verification of the maelstrom group-keying core against its specification

Shallow embedding of the repository's Rust sources:
  * `src/tree/mod.rs`        — `RatchetTree` (resolve, blanking, free leaves, apply_proposals, trim)
  * `src/tree/sender_ratchet.rs` — `SenderRatchet` (application ratchet window)
  * `src/messages/proposals.rs`  — proposals, `ProposalQueue`, `get_commit_lists`
  * `src/extensions.rs`      — `LifetimeExtension::is_expired`, integer→enum conversions
  * `src/group/mls_group/mod.rs` — the roster loop of `MlsGroup::decrypt`

Modules `tree/treemath.rs`, `tree/index.rs`, `tree/node.rs`, `tree/astree.rs`,
`ciphersuite`, `codec` and `framing` are not part of the source snapshot; where a
definition depends on them it is modelled from the specification (spec.md §3, §4.1,
§4.5, §6) and marked `Modelled from the spec` in its doc comment.

Machine integers are modelled as `Nat`; where u32 overflow matters the reduction
modulo 2^32 is written explicitly.  Rust panics (`unwrap`, out-of-bounds indexing,
`slice::split_at` with an oversized mid, explicit `panic!`) are modelled by
`Option`-valued functions returning `none`.
-/

set_option maxHeartbeats 1000000

namespace Maelstrom

/-! ## Tree math

Modelled from the spec (§4.1): `tree/treemath.rs` is not in the snapshot.  Node
indices for `n` leaves live in `0 .. 2n−1`; leaves are even, parents odd.  The
conversions `NodeIndex::from(usize)` / `From<u32>` are the raw value (forced by
their uses in `tree/mod.rs`, e.g. `find_kp_in_tree` and `tree_size`), while
`NodeIndex = 2·LeafIndex` (spec §3). -/

/-- Structural helper for `level`: `fuel ≥ x` steps always suffice. -/
def level_aux : Nat → Nat → Nat
  | 0, _ => 0
  | fuel + 1, x => if x % 2 = 0 then 0 else level_aux fuel (x / 2) + 1

/-- `level(i)` = count of trailing 1-bits of `i` (spec §4.1). -/
def level (x : Nat) : Nat := level_aux x x

theorem level_aux_congr :
    ∀ f1 x, x ≤ f1 → ∀ f2, x ≤ f2 → level_aux f1 x = level_aux f2 x := by
  intro f1
  induction f1 with
  | zero =>
    intro x hx f2 _
    have hx0 : x = 0 := by omega
    subst hx0
    cases f2 with
    | zero => rfl
    | succ m => simp [level_aux]
  | succ k ih =>
    intro x hx f2 hx2
    cases f2 with
    | zero =>
      have hx0 : x = 0 := by omega
      subst hx0
      simp [level_aux]
    | succ m =>
      by_cases hpar : x % 2 = 0
      · simp [level_aux, hpar]
      · have h1 : x / 2 ≤ k := by omega
        have h2 : x / 2 ≤ m := by omega
        simp only [level_aux, if_neg hpar]
        rw [ih (x / 2) h1 m h2]

/-- Number of nodes of a tree with `n` leaves: `2n − 1` (spec §3, §4.1). -/
def node_width (n : Nat) : Nat := 2 * n - 1

/-- Structural floor-log₂ (`fuel ≥ n` steps suffice). -/
def log2_aux : Nat → Nat → Nat
  | 0, _ => 0
  | fuel + 1, n => if 2 ≤ n then log2_aux fuel (n / 2) + 1 else 0

/-- Floor of the base-2 logarithm. -/
def log2f (n : Nat) : Nat := log2_aux n n

/-- `root(size) = (1 << log2(size)) − 1` where `size` is the node count (spec §4.1). -/
def root (n : Nat) : Nat := 2 ^ log2f (node_width n) - 1

/-- `left(i) = i − (1 << (level(i)−1))`; defined only for parents (spec §4.1).
For `level i = 0` the source would shift by `usize` −1 and panic; the `Nat`
value returned here is never used under that condition. -/
def left (i : Nat) : Nat := i - 2 ^ (level i - 1)

/-- First candidate for the right child: `i + (1 << (level(i)−1))` (spec §4.1). -/
def rstep (i : Nat) : Nat := i + 2 ^ (level i - 1)

/-- The "descend left until in range" loop of `right` (spec §4.1), with fuel:
`level r` steps always suffice to bring the candidate in range of a valid tree. -/
def descend_left (w : Nat) : Nat → Nat → Nat
  | 0, r => r
  | fuel + 1, r => if w ≤ r then descend_left w fuel (left r) else r

/-- `right(i, size)`: start at `rstep i` and descend left while out of range
(spec §4.1).  `n` is the leaf count; the range bound is `node_width n`. -/
def right (i n : Nat) : Nat := descend_left (node_width n) (level (rstep i)) (rstep i)

/-- One step towards the parent in an infinite tree (spec §4.1: the unique `p`
with `level p = level i + 1` whose subtree contains `i`). -/
def parent_step (x : Nat) : Nat :=
  let k := level x
  if (x / 2 ^ (k + 1)) % 2 = 1 then x + 2 ^ k - 2 ^ (k + 1) else x + 2 ^ k

/-- The "step until in range" loop of `parent`, with ample fuel. -/
def parent_aux (w : Nat) : Nat → Nat → Nat
  | 0, p => p
  | fuel + 1, p => if w ≤ p then parent_aux w fuel (parent_step p) else p

/-- `parent(i, size)`; for the root returns the root itself (spec §4.1). -/
def parent (x n : Nat) : Nat :=
  if x = root n then x else parent_aux (node_width n) (node_width n) (parent_step x)

/-- Direct path of `x`: ancestors from `parent x` upwards, root-exclusive
(spec §3, §4.1: `dirpath(i,size)` is root-exclusive). -/
def dirpath_aux (n : Nat) : Nat → Nat → List Nat
  | 0, _ => []
  | fuel + 1, x =>
    let p := parent x n
    if p = root n then [] else p :: dirpath_aux n fuel p

/-- `dirpath(i, size)` (root-exclusive). -/
def dirpath (x n : Nat) : List Nat := dirpath_aux n (node_width n) x

/-- `dirpath_root(i, size)` (root-inclusive), spec §4.1. -/
def dirpath_root (x n : Nat) : List Nat := dirpath x n ++ [root n]

/-! ### Level arithmetic

The recursions of `resolve` and of the leaf enumeration terminate because both
children of an odd index have a strictly smaller `level`. -/

theorem level_of_even {x : Nat} (h : x % 2 = 0) : level x = 0 := by
  cases x with
  | zero => rfl
  | succ n => simp [level, level_aux, h]

theorem level_of_odd {x : Nat} (h : x % 2 = 1) : level x = level (x / 2) + 1 := by
  cases x with
  | zero => omega
  | succ n =>
    show level_aux (n + 1) (n + 1) = level_aux ((n + 1) / 2) ((n + 1) / 2) + 1
    rw [level_aux, if_neg (by omega)]
    rw [level_aux_congr n ((n + 1) / 2) (by omega) ((n + 1) / 2) (by omega)]

theorem level_pos {x : Nat} (h : x % 2 = 1) : 1 ≤ level x := by
  rw [level_of_odd h]; omega

theorem level_ge_pow {x : Nat} : 2 ^ level x - 1 ≤ x := by
  by_cases h : x % 2 = 0
  · rw [level_of_even h]; omega
  · have h1 : x % 2 = 1 := by omega
    have ih : 2 ^ level (x / 2) - 1 ≤ x / 2 := level_ge_pow (x := x / 2)
    rw [level_of_odd h1, pow_succ]
    have h2 : 1 ≤ 2 ^ level (x / 2) := Nat.one_le_two_pow
    omega
decreasing_by
  have : x ≠ 0 := by omega
  exact Nat.div_lt_self (by omega) (by omega)

theorem left_odd_rec {y : Nat} (hy : y % 2 = 1) : left (2 * y + 1) = 2 * left y + 1 := by
  have hx : (2 * y + 1) % 2 = 1 := by omega
  have hdiv : (2 * y + 1) / 2 = y := by omega
  have h1 : level (2 * y + 1) = level y + 1 := by rw [level_of_odd hx, hdiv]
  have h2 : 1 ≤ level y := level_pos hy
  have h3 : 2 ^ level y - 1 ≤ y := level_ge_pow
  unfold left
  rw [h1]
  have h4 : level y + 1 - 1 = (level y - 1) + 1 := by omega
  rw [h4, pow_succ]
  have h5 : 1 ≤ 2 ^ (level y - 1) := Nat.one_le_two_pow
  have hsp : 2 ^ level y = 2 * 2 ^ (level y - 1) := by
    conv_lhs => rw [show level y = (level y - 1) + 1 by omega]
    rw [pow_succ]; ring
  omega

theorem left_even_rec {y : Nat} (hy : y % 2 = 0) : left (2 * y + 1) = 2 * y := by
  have hx : (2 * y + 1) % 2 = 1 := by omega
  have hdiv : (2 * y + 1) / 2 = y := by omega
  unfold left
  rw [level_of_odd hx, hdiv, level_of_even hy]
  simp

/-- The left child of an odd index has level one less. -/
theorem level_left {x : Nat} (h : x % 2 = 1) : level (left x) + 1 = level x := by
  have hy : x = 2 * (x / 2) + 1 := by omega
  set y := x / 2 with hydef
  by_cases hpar : y % 2 = 0
  · rw [hy, left_even_rec hpar, level_of_even (by omega), level_of_odd (by omega)]
    have : (2 * y + 1) / 2 = y := by omega
    rw [this, level_of_even hpar]
  · have hp1 : y % 2 = 1 := by omega
    have ih : level (left y) + 1 = level y := level_left hp1
    rw [hy, left_odd_rec hp1]
    have h1 : level (2 * left y + 1) = level (left y) + 1 := by
      rw [level_of_odd (by omega)]
      have : (2 * left y + 1) / 2 = left y := by omega
      rw [this]
    have h2 : level (2 * y + 1) = level y + 1 := by
      rw [level_of_odd (by omega)]
      have : (2 * y + 1) / 2 = y := by omega
      rw [this]
    omega
decreasing_by
  omega

theorem rstep_odd_rec {y : Nat} (hy : y % 2 = 1) : rstep (2 * y + 1) = 2 * rstep y + 1 := by
  have hdiv : (2 * y + 1) / 2 = y := by omega
  have h1 : level (2 * y + 1) = level y + 1 := by rw [level_of_odd (by omega), hdiv]
  unfold rstep
  rw [h1]
  have h2 : 1 ≤ level y := level_pos hy
  have h4 : level y + 1 - 1 = (level y - 1) + 1 := by omega
  rw [h4, pow_succ]
  omega

theorem rstep_even_rec {y : Nat} (hy : y % 2 = 0) : rstep (2 * y + 1) = 2 * (y + 1) := by
  have hdiv : (2 * y + 1) / 2 = y := by omega
  unfold rstep
  rw [level_of_odd (by omega), hdiv, level_of_even hy]
  simp; omega

/-- The right-child candidate of an odd index has level one less. -/
theorem level_rstep {x : Nat} (h : x % 2 = 1) : level (rstep x) + 1 = level x := by
  have hy : x = 2 * (x / 2) + 1 := by omega
  set y := x / 2 with hydef
  by_cases hpar : y % 2 = 0
  · rw [hy, rstep_even_rec hpar, level_of_even (by omega), level_of_odd (by omega)]
    have : (2 * y + 1) / 2 = y := by omega
    rw [this, level_of_even hpar]
  · have hp1 : y % 2 = 1 := by omega
    have ih : level (rstep y) + 1 = level y := level_rstep hp1
    rw [hy, rstep_odd_rec hp1]
    have h1 : level (2 * rstep y + 1) = level (rstep y) + 1 := by
      rw [level_of_odd (by omega)]
      have : (2 * rstep y + 1) / 2 = rstep y := by omega
      rw [this]
    have h2 : level (2 * y + 1) = level y + 1 := by
      rw [level_of_odd (by omega)]
      have : (2 * y + 1) / 2 = y := by omega
      rw [this]
    omega
decreasing_by
  omega

/-- Descending left never raises the level (with exact fuel). -/
theorem level_descend_left {w : Nat} : ∀ fuel r, level r = fuel →
    level (descend_left w fuel r) ≤ fuel := by
  intro fuel
  induction fuel with
  | zero => intro r h; rw [descend_left]; omega
  | succ k ih =>
    intro r h
    rw [descend_left]
    by_cases hw : w ≤ r
    · rw [if_pos hw]
      have hodd : r % 2 = 1 := by
        by_contra hc
        have : level r = 0 := level_of_even (by omega)
        omega
      have hl : level (left r) = k := by have := level_left hodd; omega
      have := ih (left r) hl
      omega
    · rw [if_neg hw]; omega

theorem level_left_lt {x : Nat} (h : x % 2 = 1) : level (left x) < level x := by
  have := level_left h; omega

theorem level_right_lt {x n : Nat} (h : x % 2 = 1) : level (right x n) < level x := by
  have h1 : level (rstep x) + 1 = level x := level_rstep h
  have h2 := level_descend_left (w := node_width n) (level (rstep x)) (rstep x) rfl
  unfold right
  omega

theorem left_lt_self {x : Nat} (h : x % 2 = 1) : left x < x := by
  unfold left
  have h1 : 1 ≤ level x := level_pos h
  have h2 : 1 ≤ 2 ^ (level x - 1) := Nat.one_le_two_pow
  have h3 : 2 ^ level x - 1 ≤ x := level_ge_pow
  have hsp : 2 ^ level x = 2 * 2 ^ (level x - 1) := by
    conv_lhs => rw [show level x = (level x - 1) + 1 by omega]
    rw [pow_succ]; ring
  omega

/-- The descend-left loop ends in range provided full descent would. -/
theorem descend_left_lt {w : Nat} : ∀ fuel r, level r = fuel →
    r - (2 ^ fuel - 1) < w → descend_left w fuel r < w := by
  intro fuel
  induction fuel with
  | zero => intro r h hr; rw [descend_left]; simpa using hr
  | succ k ih =>
    intro r h hr
    rw [descend_left]
    by_cases hw : w ≤ r
    · rw [if_pos hw]
      have hodd : r % 2 = 1 := by
        by_contra hc
        have : level r = 0 := level_of_even (by omega)
        omega
      have hl : level (left r) = k := by have := level_left hodd; omega
      refine ih (left r) hl ?_
      have hpow : 2 ^ (level r - 1) = 2 ^ k := by rw [h]; simp
      have hge : 2 ^ (k + 1) - 1 ≤ r := by have := level_ge_pow (x := r); rw [h] at this; exact this
      unfold left
      rw [hpow]
      rw [pow_succ] at hge hr
      omega
    · rw [if_neg hw]; omega

/-- For an odd in-range index of an odd-width tree, the right child is in range. -/
theorem right_lt {x n : Nat} (hodd : x % 2 = 1) (hw : node_width n % 2 = 1)
    (hx : x < node_width n) : right x n < node_width n := by
  unfold right
  refine descend_left_lt (level (rstep x)) (rstep x) rfl ?_
  have h1 : level (rstep x) + 1 = level x := level_rstep hodd
  have h3 : 2 ^ (level x - 1) = 2 ^ level (rstep x) := by
    congr 1; omega
  have h2 : rstep x = x + 2 ^ level (rstep x) := by
    conv_lhs => unfold rstep
    rw [h3]
  -- full descent from `rstep x` ends at `x + 1`, which is in range since both
  -- `x` and the width are odd
  have h4 : x + 1 < node_width n := by omega
  have h5 : 1 ≤ 2 ^ level (rstep x) := Nat.one_le_two_pow
  omega

/-! ## Nodes and the ratchet tree

`tree/node.rs` is not in the snapshot; the node representation is modelled from
the spec (§3): a node is tagged Leaf or Parent, a leaf holds an optional
`KeyPackage` (`None` = blank), a parent an optional `ParentNode`
`(public_key, parent_hash, unmerged_leaves)` (`None` = blank).  Key packages,
credentials and public keys are abstracted to identifiers; none of the verified
operations inspects their internals. -/

/-- Abstraction of `KeyPackage` (identity + credential; the signed fields are
irrelevant to the verified operations). -/
structure KeyPackage where
  id : Nat
  credential : Nat
deriving DecidableEq, Repr

/-- `KeyPackageBundle`: key package plus its HPKE init private key. -/
structure KeyPackageBundle where
  key_package : KeyPackage
  private_key : Nat
deriving DecidableEq, Repr

/-- `ParentNode` (spec §3): public key, parent hash, unmerged leaves (`Vec<u32>`,
raw `u32` values as pushed by `apply_proposals`). -/
structure ParentNode where
  public_key : Nat
  parent_hash : List Nat
  unmerged_leaves : List Nat
deriving DecidableEq, Repr

instance : Inhabited ParentNode := ⟨⟨0, [], []⟩⟩

inductive NodeType where
  | Leaf
  | Parent
  | Default
deriving DecidableEq, Repr

/-- `Node` as used throughout `tree/mod.rs`: a type tag plus the two optional
payloads (leaves use `key_package`, parents use `node`). -/
structure Node where
  node_type : NodeType
  key_package : Option KeyPackage
  node : Option ParentNode
deriving DecidableEq, Repr

/-- `Node::new_leaf`. -/
def Node.new_leaf (kp : Option KeyPackage) : Node := ⟨NodeType.Leaf, kp, none⟩

/-- `Node::new_blank_parent_node`. -/
def Node.new_blank_parent_node : Node := ⟨NodeType.Parent, none, none⟩

/-- `Node::is_blank`: no payload of either kind. -/
def Node.is_blank (n : Node) : Bool := n.key_package.isNone && n.node.isNone

/-- `Node::blank`: drop both payloads, keep the type tag. -/
def Node.blank (n : Node) : Node := { n with key_package := none, node := none }

instance : Inhabited Node := ⟨Node.new_leaf none⟩

/-- `OwnLeaf` (`tree/mod.rs`): own key package bundle, own node index, and the
private keys along the own direct path (abstracted; no verified operation reads
them). -/
structure OwnLeaf where
  kpb : KeyPackageBundle
  node_index : Nat
  path_keypairs : List (Option Nat)
deriving DecidableEq, Repr

/-- `PathKeypairs::new()`. -/
def PathKeypairs.new : List (Option Nat) := []

/-- `RatchetTree` (`tree/mod.rs`).  The `ciphersuite` field is omitted: none of
the embedded operations uses it except through the symbolic hash. -/
structure RatchetTree where
  nodes : List Node
  own_leaf : OwnLeaf
deriving DecidableEq, Repr

namespace RatchetTree

/-- `RatchetTree::new`: a single leaf holding the own key package. -/
def new (kpb : KeyPackageBundle) : RatchetTree :=
  { nodes := [Node.new_leaf (some kpb.key_package)]
    own_leaf := ⟨kpb, 0, PathKeypairs.new⟩ }

/-- `leaf_count()` = `tree_size().into()`.  `From<NodeIndex> for LeafIndex` is in
the missing `tree/index.rs`; modelled from the spec (§3: `2n − 1` nodes for `n`
leaves), hence `(len + 1) / 2`. -/
def leaf_count (t : RatchetTree) : Nat := (t.nodes.length + 1) / 2

/-- The node at index `i` (`self.nodes[i]`); out-of-range access panics in the
source and is never reached by the verified statements. -/
def nodeAt (t : RatchetTree) (i : Nat) : Node := t.nodes.getD i default

/-- Overwrite the node at index `i` (`self.nodes[i] = node`). -/
def setNode (t : RatchetTree) (i : Nat) (nd : Node) : RatchetTree :=
  { t with nodes := t.nodes.set i nd }

/-- Blank the node at index `i` (`self.nodes[i].blank()`). -/
def setBlank (t : RatchetTree) (i : Nat) : RatchetTree :=
  t.setNode i ((t.nodeAt i).blank)

/-- `RatchetTree::blank_member` (`tree/mod.rs` 264–271): blank the index, the
root, and every node on the index's direct path. -/
def blank_member (t : RatchetTree) (index : Nat) : RatchetTree :=
  let size := t.leaf_count
  let t1 := (t.setBlank index).setBlank (root size)
  (dirpath index size).foldl setBlank t1

/-- `RatchetTree::free_leaves` (`tree/mod.rs` 272–281).  The source loops
`for i in 0..self.leaf_count()` and tests `self.nodes[NodeIndex::from(i)]`:
the loop variable is used as a raw node index. -/
def free_leaves (t : RatchetTree) : List Nat :=
  (List.range t.leaf_count).filter (fun i =>
    match t.nodes.get? i with
    | some nd => nd.is_blank
    | none => false)

/-- `RatchetTree::trim_tree` (`tree/mod.rs` 587–599): truncate after the last
non-blank node; if every node is blank the tree is left unchanged. -/
def trim_tree (t : RatchetTree) : RatchetTree :=
  let new_tree_size :=
    (List.range t.nodes.length).foldl
      (fun acc i => if (t.nodeAt i).is_blank then acc else i + 1) 0
  if 0 < new_tree_size then { t with nodes := t.nodes.take new_tree_size } else t

/-- `RatchetTree::resolve` (`tree/mod.rs` 236–263).
  * out-of-range index: the source would panic; never reached in range;
  * non-blank parent whose `node` field is `None`: the source `unwrap`s — such a
    node cannot occur in a type-consistent tree (see `WellFormedTree`), the
    `getD default` branch is never exercised by the theorems;
  * the recursion into children happens only at odd indices, which is where the
    source can reach it on a type-consistent tree (parents sit at odd indices);
    this guard makes the recursion well-founded on `level`. -/
def resolve (t : RatchetTree) (i : Nat) : List Nat :=
  match t.nodes.get? i with
  | none => []
  | some nd =>
    if nd.node_type = NodeType.Leaf then
      if nd.is_blank then [] else [i]
    else if nd.is_blank = false then
      i :: (nd.node.getD default).unmerged_leaves
    else if h : i % 2 = 1 then
      resolve t (left i) ++ resolve t (right i t.leaf_count)
    else []
termination_by level i
decreasing_by
  · exact level_left_lt h
  · exact level_right_lt h

end RatchetTree

/-- The leaves of the subtree rooted at `i` in a tree with `n` leaves, by the
same left/right recursion the source uses (spec §4.1: leaves even, parents odd). -/
def subtree_leaves (n : Nat) (i : Nat) : List Nat :=
  if h : i % 2 = 1 then subtree_leaves n (left i) ++ subtree_leaves n (right i n) else [i]
termination_by level i
decreasing_by
  · exact level_left_lt h
  · exact level_right_lt h

/-- Well-formedness of a tree (spec §3 invariants I1, I2, I5): an odd number of
nodes; type tags match index parity; nodes carry only the payload of their type;
unmerged leaves of non-blank parents are in-range non-blank leaves. -/
def WellFormedTree (t : RatchetTree) : Prop :=
  t.nodes.length % 2 = 1 ∧
  (∀ i, i < t.nodes.length →
    ((t.nodeAt i).node_type = if i % 2 = 0 then NodeType.Leaf else NodeType.Parent)) ∧
  (∀ i, i < t.nodes.length → i % 2 = 0 → (t.nodeAt i).node = none) ∧
  (∀ i, i < t.nodes.length → i % 2 = 1 → (t.nodeAt i).key_package = none) ∧
  (∀ i, i < t.nodes.length → i % 2 = 1 → (t.nodeAt i).is_blank = false →
    ∀ u ∈ ((t.nodeAt i).node.getD default).unmerged_leaves,
      u < t.nodes.length ∧ u % 2 = 0 ∧ (t.nodeAt u).is_blank = false)

instance (t : RatchetTree) : Decidable (WellFormedTree t) := by
  unfold WellFormedTree
  refine @instDecidableAnd _ _ ?_
    (@instDecidableAnd _ _ ?_
      (@instDecidableAnd _ _ ?_
        (@instDecidableAnd _ _ ?_ ?_))) <;> infer_instance

/-! ## Proposals and the proposal queue (`messages/proposals.rs`)

`ciphersuite.rs` and `codec.rs` are not in the snapshot.  `ProposalID` is the
ciphersuite hash of the proposal's canonical encoding; `encode` is injective on
proposals (length-prefixed canonical encoding, spec §6) and the hash is modelled
as an ideal (collision-free) symbolic hash, i.e. a free constructor.
`ShortProposalID` is the hash truncated to 32 bytes; on symbolic hashes the
truncation is modelled as the identity. -/

structure AddProposal where
  key_package : KeyPackage
deriving DecidableEq, Repr

structure UpdateProposal where
  key_package : KeyPackage
deriving DecidableEq, Repr

structure RemoveProposal where
  removed : Nat
deriving DecidableEq, Repr

inductive Proposal where
  | add (p : AddProposal)
  | update (p : UpdateProposal)
  | remove (p : RemoveProposal)
deriving DecidableEq, Repr

/-- `Proposal::as_add`. -/
def Proposal.as_add : Proposal → Option AddProposal
  | .add p => some p
  | _ => none

/-- `Proposal::as_update`. -/
def Proposal.as_update : Proposal → Option UpdateProposal
  | .update p => some p
  | _ => none

/-- `Proposal::as_remove`. -/
def Proposal.as_remove : Proposal → Option RemoveProposal
  | .remove p => some p
  | _ => none

/-- `ProposalID::from_proposal = ciphersuite.hash(encode(proposal))`, modelled
as a free constructor (ideal hash of the injective canonical encoding). -/
inductive ProposalID where
  | hash (p : Proposal)
deriving DecidableEq, Repr

/-- `Proposal::to_proposal_id`. -/
def Proposal.to_proposal_id (p : Proposal) : ProposalID := ProposalID.hash p

/-- `QueuedProposal`: proposal, sender leaf index (`Sender::member`), optional
own key package bundle. -/
structure QueuedProposal where
  proposal : Proposal
  sender : Nat
  own_kpb : Option KeyPackageBundle
deriving DecidableEq, Repr

/-- `ProposalQueue`: `HashMap<ShortProposalID, (ProposalID, QueuedProposal)>`.
The association list records the entries in insertion order (used to state the
order claims); the map's iteration order is a separate, unspecified permutation
(see `get_commit_lists_iter`). -/
structure ProposalQueue where
  tuples : List (ProposalID × (ProposalID × QueuedProposal))
deriving DecidableEq, Repr

namespace ProposalQueue

/-- `ProposalQueue::new`. -/
def new : ProposalQueue := ⟨[]⟩

/-- `ProposalQueue::add`: `entry(spi).or_insert((pi, qp))` — first write wins.
The `ciphersuite` argument of the source only feeds the hash and is dropped. -/
def add (q : ProposalQueue) (qp : QueuedProposal) : ProposalQueue :=
  let pi := ProposalID.hash qp.proposal
  let spi := pi
  if (q.tuples.lookup spi).isSome then q else ⟨q.tuples ++ [(spi, (pi, qp))]⟩

/-- `ProposalQueue::get`. -/
def get (q : ProposalQueue) (proposal_id : ProposalID) :
    Option (ProposalID × QueuedProposal) :=
  q.tuples.lookup proposal_id

end ProposalQueue

/-- `ProposalIDList` returned by `get_commit_lists`. -/
structure ProposalIDList where
  updates : List ProposalID
  removes : List ProposalID
  adds : List ProposalID
deriving DecidableEq, Repr

/-- The body of `ProposalQueue::get_commit_lists` (`messages/proposals.rs`
205–222) applied to the sequence of entries the `HashMap::values()` iterator
yields.  `HashMap` iteration order is unspecified (randomised per process in
Rust's std), so the iteration sequence is a parameter: any permutation of the
map's values.  The `for` loop pushes `p.proposal.to_proposal_id(..)` onto the
bucket matching the proposal's variant, i.e. each bucket is the in-iteration-
order filter of the entries. -/
def get_commit_lists_iter (entries : List (ProposalID × QueuedProposal)) :
    ProposalIDList where
  updates := entries.filterMap (fun e =>
    match e.2.proposal with
    | .update _ => some e.2.proposal.to_proposal_id
    | _ => none)
  removes := entries.filterMap (fun e =>
    match e.2.proposal with
    | .remove _ => some e.2.proposal.to_proposal_id
    | _ => none)
  adds := entries.filterMap (fun e =>
    match e.2.proposal with
    | .add _ => some e.2.proposal.to_proposal_id
    | _ => none)

/-- `MembershipChanges` (credentials of updated/removed/added members). -/
structure MembershipChanges where
  updates : List Nat
  removes : List Nat
  adds : List Nat
deriving DecidableEq, Repr

/-! ## `RatchetTree::apply_proposals` (`tree/mod.rs` 475–586)

Panics are modelled as `none`: a missing queue entry, a proposal of the wrong
variant, a self-update without a matching pending bundle, removing a node
without a key package (`panic!("Cannot remove a parent/empty node")`),
`split_at(free_leaves.len())` when there are fewer adds than free leaves, and
`node.node.clone().unwrap()` on a non-blank dirpath node without a parent
payload. -/

namespace RatchetTree

/-- The update loop of `apply_proposals` (`tree/mod.rs` 488–505).
`Sender::as_node_index` lives in the missing `framing.rs`; modelled from the
spec (§3): `NodeIndex = 2·LeafIndex`. -/
def process_updates (queue : ProposalQueue) (pending : List KeyPackageBundle) :
    List ProposalID → RatchetTree → List Nat → Option (RatchetTree × List Nat)
  | [], t, acc => some (t, acc)
  | u :: rest, t, acc =>
    match queue.get u with
    | none => none
    | some (_pid, qp) =>
      match qp.proposal.as_update with
      | none => none
      | some up =>
        let index := 2 * qp.sender
        let t1 := (t.blank_member index).setNode index
          (Node.new_leaf (some up.key_package))
        let acc1 := acc ++ [up.key_package.credential]
        if index = t1.own_leaf.node_index then
          match pending.find? (fun kpb => kpb.key_package == up.key_package) with
          | none => none
          | some own_kpb =>
            process_updates queue pending rest
              { t1 with own_leaf := ⟨own_kpb, index, PathKeypairs.new⟩ } acc1
        else
          process_updates queue pending rest t1 acc1

/-- The remove loop of `apply_proposals` (`tree/mod.rs` 506–523).
`NodeIndex::from(remove_proposal.removed)` is the raw `u32` value. -/
def process_removes (queue : ProposalQueue) :
    List ProposalID → RatchetTree → List Nat → Bool →
    Option (RatchetTree × List Nat × Bool)
  | [], t, acc, sr => some (t, acc, sr)
  | r :: rest, t, acc, sr =>
    match queue.get r with
    | none => none
    | some (_pid, qp) =>
      match qp.proposal.as_remove with
      | none => none
      | some rp =>
        let removed := rp.removed
        let sr1 := sr || (removed == t.own_leaf.node_index)
        match (t.nodes.get? removed).bind Node.key_package with
        | none => none
        | some kp =>
          process_removes queue rest (t.blank_member removed)
            (acc ++ [kp.credential]) sr1

/-- The unmerged-leaves insertion for one dirpath node of an in-place add
(`tree/mod.rs` 548–559): skip blank nodes; otherwise push `d.as_u32()` — the
dirpath node's own index — onto `unmerged_leaves` unless already present. -/
def update_unmerged (t : RatchetTree) (d : Nat) : Option RatchetTree :=
  let nd := t.nodeAt d
  if nd.is_blank then some t
  else
    match nd.node with
    | none => none
    | some pn =>
      let index := d
      let pn1 :=
        if index ∈ pn.unmerged_leaves then pn
        else { pn with unmerged_leaves := pn.unmerged_leaves ++ [index] }
      some (t.setNode d { nd with node := some pn1 })

/-- One in-place add (`tree/mod.rs` 544–562): install the leaf, then walk
`dirpath_root(leaf_index, leaf_count)` updating `unmerged_leaves`. -/
def add_in_place_one (t : RatchetTree) (leaf_index : Nat) (ap : AddProposal) :
    Option RatchetTree :=
  let t1 := t.setNode leaf_index (Node.new_leaf (some ap.key_package))
  let dp := dirpath_root leaf_index t1.leaf_count
  dp.foldlM update_unmerged t1

/-- The in-place-add loop, collecting added credentials and invited members. -/
def process_in_place :
    List (AddProposal × Nat) → RatchetTree → List Nat → List (Nat × AddProposal) →
    Option (RatchetTree × List Nat × List (Nat × AddProposal))
  | [], t, creds, inv => some (t, creds, inv)
  | (ap, li) :: rest, t, creds, inv =>
    match t.add_in_place_one li ap with
    | none => none
    | some t1 =>
      process_in_place rest t1 (creds ++ [ap.key_package.credential])
        (inv ++ [(li, ap)])

/-- The append loop (`tree/mod.rs` 563–573): two fresh nodes per add (blank
parent, then the new leaf), leaf indices `len+1, len+3, …`. -/
def append_adds : List AddProposal → Nat → List Node × List Nat × List (Nat × AddProposal)
  | [], _ => ([], [], [])
  | ap :: rest, li =>
    let (ns, cs, inv) := append_adds rest (li + 2)
    (Node.new_blank_parent_node :: Node.new_leaf (some ap.key_package) :: ns,
      ap.key_package.credential :: cs, (li, ap) :: inv)

/-- `RatchetTree::apply_proposals` (`tree/mod.rs` 475–586): updates, then
removes, then adds (in-place into `free_leaves()` first, the rest appended),
then `trim_tree`.  The `reserve_exact` call only preallocates and has no
semantic effect. -/
def apply_proposals (t : RatchetTree) (proposal_id_list : ProposalIDList)
    (proposal_queue : ProposalQueue) (pending_kpbs : List KeyPackageBundle) :
    Option (RatchetTree × MembershipChanges × List (Nat × AddProposal) × Bool) :=
  match process_updates proposal_queue pending_kpbs proposal_id_list.updates t [] with
  | none => none
  | some (t1, upd_creds) =>
    match process_removes proposal_queue proposal_id_list.removes t1 [] false with
    | none => none
    | some (t2, rem_creds, self_removed) =>
      if proposal_id_list.adds.isEmpty then
        some (t2, ⟨upd_creds, rem_creds, []⟩, [], self_removed)
      else
        match proposal_id_list.adds.mapM (fun a =>
          match proposal_queue.get a with
          | none => none
          | some (_pid, qp) => qp.proposal.as_add) with
        | none => none
        | some add_proposals =>
          let free := t2.free_leaves
          if free.length ≤ add_proposals.length then
            let add_in_place := add_proposals.take free.length
            let add_append := add_proposals.drop free.length
            match process_in_place (add_in_place.zip free) t2 [] [] with
            | none => none
            | some (t3, ip_creds, ip_inv) =>
              let (new_nodes, ap_creds, ap_inv) :=
                append_adds add_append (t3.nodes.length + 1)
              let t4 := trim_tree { t3 with nodes := t3.nodes ++ new_nodes }
              some (t4, ⟨upd_creds, rem_creds, ip_creds ++ ap_creds⟩,
                ip_inv ++ ap_inv, self_removed)
          else
            -- `add_proposals.split_at(free_leaves.len())` panics when
            -- `free_leaves.len() > add_proposals.len()`
            none

end RatchetTree

/-! ## Extensions (`extensions.rs`) -/

/-- `LifetimeExtension` (`extensions.rs` 147–151). -/
structure LifetimeExtension where
  not_before : Nat
  not_after : Nat
deriving DecidableEq, Repr

/-- `LifetimeExtension::is_expired` (`extensions.rs` 191–198).  The source reads
`SystemTime::now()`; the clock reading is the explicit `now` parameter here.
The returned value is literally `self.not_before < now && self.not_after > now`. -/
def LifetimeExtension.is_expired (ext : LifetimeExtension) (now : Nat) : Bool :=
  decide (ext.not_before < now) && decide (ext.not_after > now)

/-- `ProtocolVersion` (`extensions.rs` 26–31), `repr(u8)` with discriminants
`Mls10 = 0`, `Default = 255`. -/
inductive ProtocolVersion where
  | Mls10
  | Default
deriving DecidableEq, Repr

/-- `impl From<u8> for ProtocolVersion` (`extensions.rs` 33–37) is
`unsafe { mem::transmute(a) }`: it produces a defined variant only when `a` is a
declared discriminant; any other input is undefined behavior, modelled `none`. -/
def ProtocolVersion.fromU8 (a : Nat) : Option ProtocolVersion :=
  if a = 0 then some .Mls10
  else if a = 255 then some .Default
  else none

/-- `ExtensionType` (`extensions.rs` 65–76), `repr(u16)`, discriminants 0–6 and
65535. -/
inductive ExtensionType where
  | Invalid
  | Capabilities
  | Lifetime
  | KeyID
  | ParentHash
  | RatchetTree
  | DeviceCapabilities
  | Default
deriving DecidableEq, Repr

/-- `impl From<u16> for ExtensionType` (`extensions.rs` 78–82), again
`mem::transmute`: undefined behavior (`none`) off the discriminant set. -/
def ExtensionType.fromU16 (a : Nat) : Option ExtensionType :=
  if a = 0 then some .Invalid
  else if a = 1 then some .Capabilities
  else if a = 2 then some .Lifetime
  else if a = 3 then some .KeyID
  else if a = 4 then some .ParentHash
  else if a = 5 then some .RatchetTree
  else if a = 6 then some .DeviceCapabilities
  else if a = 65535 then some .Default
  else none

/-- `ProposalType` (`messages/proposals.rs` 8–16). -/
inductive ProposalType where
  | Invalid
  | Add
  | Update
  | Remove
  | Default
deriving DecidableEq, Repr

/-- `impl From<u8> for ProposalType` (`messages/proposals.rs` 18–28): an
explicit `match` with a `Default` fallback — total, no transmute. -/
def ProposalType.fromU8 (value : Nat) : ProposalType :=
  if value = 0 then .Invalid
  else if value = 1 then .Add
  else if value = 2 then .Update
  else if value = 3 then .Remove
  else .Default

/-! ## The roster loop of `MlsGroup::decrypt` (`group/mls_group/mod.rs` 205–225)

The loop runs `for i in 0..tree.leaf_count()` over raw node indices and demands
`node.key_package` to be present, executing `panic!("Missing key package")`
otherwise (modelled `none`).  The subsequent `to_plaintext` call (in the missing
`framing.rs`) is reached only if the loop completes. -/

def decrypt_roster (t : RatchetTree) : Option (List Nat) :=
  (List.range t.leaf_count).mapM (fun i =>
    (t.nodes.get? i).bind (fun nd => nd.key_package.map KeyPackage.credential))

/-! ## Sender ratchet (`tree/sender_ratchet.rs`)

`tree/astree.rs` and the ciphersuite are not in the snapshot.  Modelled from the
spec (§4.5): `derive_app_secret` is `HKDF-Expand-Label` with the given label and
context `encode(leaf ‖ generation)`; it is modelled as a free constructor over
symbolic secrets: an ideal KDF, distinct inputs give distinct outputs. -/

/-- Symbolic byte strings produced by the application-secret KDF. -/
inductive SymSecret where
  | seed (n : Nat)
  | derived (s : SymSecret) (label : String) (leaf : Nat) (generation : Nat) (len : Nat)
deriving DecidableEq, Repr

/-- The ciphersuite constants consumed by the sender ratchet. -/
structure Ciphersuite where
  hash_length : Nat
  aead_key_length : Nat
  aead_nonce_length : Nat
deriving DecidableEq, Repr

/-- `derive_app_secret` (missing `tree/astree.rs`; spec §4.5 / §6). -/
def derive_app_secret (secret : SymSecret) (label : String) (leaf generation len : Nat) :
    SymSecret :=
  SymSecret.derived secret label leaf generation len

/-- `ApplicationSecrets::new(nonce, key)`. -/
structure ApplicationSecrets where
  nonce : SymSecret
  key : SymSecret
deriving DecidableEq, Repr

inductive ASError where
  | TooDistantInThePast
  | TooDistantInTheFuture
deriving DecidableEq, Repr

deriving instance DecidableEq for Except

def OUT_OF_ORDER_TOLERANCE : Nat := 5
def MAXIMUM_FORWARD_DISTANCE : Nat := 1000

/-- `u32` modulus; the ratchet's `generation` field and arithmetic are `u32`. -/
def U32_MOD : Nat := 2 ^ 32

/-- `SenderRatchet` (`tree/sender_ratchet.rs` 8–13). -/
structure SenderRatchet where
  index : Nat
  generation : Nat
  past_secrets : List SymSecret
deriving DecidableEq, Repr

namespace SenderRatchet

/-- `SenderRatchet::new`. -/
def new (index : Nat) (secret : SymSecret) : SenderRatchet :=
  ⟨index, 0, [secret]⟩

/-- `SenderRatchet::ratchet_secret` (`tree/sender_ratchet.rs` 87–96): note that
it reads `self.generation`, which during the forward loop of `get_secret` still
holds the pre-call generation. -/
def ratchet_secret (index generation : Nat) (secret : SymSecret) (cs : Ciphersuite) :
    SymSecret :=
  derive_app_secret secret "app-secret" index generation cs.hash_length

/-- `SenderRatchet::derive_key_nonce` (`tree/sender_ratchet.rs` 97–120). -/
def derive_key_nonce (index : Nat) (secret : SymSecret) (generation : Nat)
    (cs : Ciphersuite) : ApplicationSecrets :=
  { nonce := derive_app_secret secret "app-nonce" index generation cs.aead_nonce_length
    key := derive_app_secret secret "app-key" index generation cs.aead_key_length }

/-- The forward loop of `get_secret` (`tree/sender_ratchet.rs` 73–80): per step,
pop the oldest secret when the window is full, then push the ratchet of the last
one.  `last().unwrap()` on an empty deque panics (`none`). -/
def forward_steps (index generation_field : Nat) (cs : Ciphersuite) :
    Nat → List SymSecret → Option (List SymSecret)
  | 0, ps => some ps
  | n + 1, ps =>
    let ps1 := if ps.length = OUT_OF_ORDER_TOLERANCE then ps.drop 1 else ps
    match ps1.getLast? with
    | none => none
    | some last =>
      forward_steps index generation_field cs n
        (ps1 ++ [ratchet_secret index generation_field last cs])

/-- `SenderRatchet::get_secret` (`tree/sender_ratchet.rs` 54–86).  Returns the
result together with the (possibly) updated ratchet; `none` models a panic.
`self.generation + MAXIMUM_FORWARD_DISTANCE` is `u32` addition, written with an
explicit reduction mod `2^32` (release-profile wrapping semantics).  The window
index `past_secrets.len() − (self.generation − generation) − 1` is `u32`
arithmetic whose underflow leaves the subsequent lookup out of bounds, hence the
`unwrap` panics; that is the `none` branch of the guarded lookup. -/
def get_secret (r : SenderRatchet) (generation : Nat) (cs : Ciphersuite) :
    Option (Except ASError ApplicationSecrets × SenderRatchet) :=
  if (r.generation + MAXIMUM_FORWARD_DISTANCE) % U32_MOD < generation then
    some (Except.error ASError.TooDistantInTheFuture, r)
  else if generation < r.generation ∧ OUT_OF_ORDER_TOLERANCE ≤ r.generation - generation then
    some (Except.error ASError.TooDistantInThePast, r)
  else if generation ≤ r.generation then
    -- the source's `diff` / `secret` lets, inlined
    if h : (r.generation - generation) + 1 ≤ r.past_secrets.length then
      some (Except.ok (derive_key_nonce r.index
        (r.past_secrets.get
          ⟨r.past_secrets.length - (r.generation - generation) - 1, by omega⟩)
        generation cs), r)
    else none
  else
    (forward_steps r.index r.generation cs (generation - r.generation)
        r.past_secrets).bind (fun ps =>
      ps.getLast?.bind (fun secret =>
        some (Except.ok (derive_key_nonce r.index secret generation cs),
          { r with generation := generation, past_secrets := ps })))

/-- States reachable from `SenderRatchet::new` by non-panicking `get_secret`
calls (with any ciphersuite and requested generation). -/
inductive Reachable : SenderRatchet → Prop where
  | new (index : Nat) (secret : SymSecret) : Reachable (SenderRatchet.new index secret)
  | step {r r' : SenderRatchet} {g : Nat} {cs : Ciphersuite}
      {res : Except ASError ApplicationSecrets} :
      Reachable r → get_secret r g cs = some (res, r') → Reachable r'

/-- `r'` is a state obtained from `r` by zero or more further `get_secret`
calls. -/
inductive Later : SenderRatchet → SenderRatchet → Prop where
  | refl (r : SenderRatchet) : Later r r
  | step {r r' r'' : SenderRatchet} {g : Nat} {cs : Ciphersuite}
      {res : Except ASError ApplicationSecrets} :
      Later r r' → get_secret r' g cs = some (res, r'') → Later r r''

end SenderRatchet

/-! ## Concrete instances used by the evaluative theorems -/

def kpA : KeyPackage := ⟨1, 101⟩
def kpB : KeyPackage := ⟨2, 102⟩
def kpC : KeyPackage := ⟨3, 103⟩
def kpD : KeyPackage := ⟨4, 104⟩
def kpE : KeyPackage := ⟨5, 105⟩
def kpF : KeyPackage := ⟨6, 106⟩
def kpG : KeyPackage := ⟨7, 107⟩
def kpX : KeyPackage := ⟨9, 109⟩

def ownA : OwnLeaf := ⟨⟨kpA, 11⟩, 0, PathKeypairs.new⟩

/-- A non-blank parent node with empty `unmerged_leaves`. -/
def pnb (j : Nat) : Node := ⟨NodeType.Parent, none, some ⟨j, [], []⟩⟩

/-- `Proposal::Add` of a given key package. -/
def addOf (kp : KeyPackage) : Proposal := Proposal.add ⟨kp⟩

/-- Seven-node tree with one blank leaf slot at node index 2 and non-blank
parents; the input of the C1 evaluation. -/
def treeC1 : RatchetTree :=
  ⟨[Node.new_leaf (some kpA), pnb 1, Node.new_leaf none, pnb 2,
    Node.new_leaf (some kpB), pnb 3, Node.new_leaf (some kpC)], ownA⟩

def queueC1 : ProposalQueue := ProposalQueue.new.add ⟨addOf kpX, 0, none⟩

def pidlC1 : ProposalIDList := ⟨[], [], [(addOf kpX).to_proposal_id]⟩

/-- The founder tree of the C2 scenario. -/
def t0demo : RatchetTree := RatchetTree.new ⟨kpA, 11⟩

def queueC2 : ProposalQueue :=
  (((((ProposalQueue.new.add ⟨addOf kpB, 0, none⟩).add ⟨addOf kpC, 0, none⟩).add
    ⟨addOf kpD, 0, none⟩).add ⟨addOf kpE, 0, none⟩).add ⟨addOf kpF, 0, none⟩).add
    ⟨addOf kpG, 0, none⟩

def pidl1 : ProposalIDList :=
  ⟨[], [], [(addOf kpB).to_proposal_id, (addOf kpC).to_proposal_id,
    (addOf kpD).to_proposal_id, (addOf kpE).to_proposal_id]⟩

def pidl2 : ProposalIDList :=
  ⟨[], [], [(addOf kpF).to_proposal_id, (addOf kpG).to_proposal_id]⟩

/-- Two-member tree after `blank_member` removed the second member: leaf A,
blank parent, blank leaf. -/
def treeC6 : RatchetTree :=
  ⟨[Node.new_leaf (some kpA), ⟨NodeType.Parent, none, none⟩, Node.new_leaf none], ownA⟩

def cs0 : Ciphersuite := ⟨32, 16, 12⟩

/-- Fresh sender ratchet at leaf 0. -/
def r0 : SenderRatchet := SenderRatchet.new 0 (SymSecret.seed 0)

/-- A sender ratchet whose `u32` generation is at the top of the range. -/
def rBig : SenderRatchet := ⟨0, 2 ^ 32 - 1, [SymSecret.seed 0]⟩

/-- Chain secret for generation 2 when stepping 0 → 1 → 2 (two calls): the
second step derives with `self.generation = 1`. -/
def c4_secret_stepwise : SymSecret :=
  SymSecret.derived (SymSecret.derived (SymSecret.seed 0) "app-secret" 0 0 32)
    "app-secret" 0 1 32

/-- Chain secret for generation 2 when jumping 0 → 2 in one call: both steps
derive with the stale `self.generation = 0`. -/
def c4_secret_jump : SymSecret :=
  SymSecret.derived (SymSecret.derived (SymSecret.seed 0) "app-secret" 0 0 32)
    "app-secret" 0 0 32

def qpU1 : QueuedProposal := ⟨Proposal.update ⟨⟨21, 201⟩⟩, 0, none⟩
def qpU2 : QueuedProposal := ⟨Proposal.update ⟨⟨22, 202⟩⟩, 1, none⟩

def queueC3 : ProposalQueue := (ProposalQueue.new.add qpU1).add qpU2

/-- A legal `HashMap::values()` iteration sequence for `queueC3`: the two
entries in reverse insertion order. -/
def entriesRev : List (ProposalID × QueuedProposal) :=
  [(qpU2.proposal.to_proposal_id, qpU2), (qpU1.proposal.to_proposal_id, qpU1)]

/-! ## Claim theorems -/

/-- C1: the claim says each in-place add inserts the NEW LEAF's index into the
`unmerged_leaves` of every non-blank parent on its direct path.  Evaluating
`apply_proposals` on `treeC1` with one add: the add lands in-place at leaf node
index 2 (leaf index 1), and the code pushes `1` into node 1's list and `3` into
node 3's list — each non-blank dirpath parent receives its OWN index
(`let index = d.as_u32()`, `tree/mod.rs` 551), not the new leaf's index. -/
theorem C1_add_in_place_inserts_dirpath_node_index :
    treeC1.free_leaves = [2]
  ∧ ((treeC1.apply_proposals pidlC1 queueC1 []).map (fun r =>
      ((r.1.nodeAt 1).node, (r.1.nodeAt 3).node)))
      = some (some ⟨1, [], [1]⟩, some ⟨2, [], [3]⟩) := by decide

/-- C2: the claim says leaves always sit at even indices and `free_leaves()`
yields even leaf slots.  Starting from `RatchetTree::new` and applying four
adds (appended) then two more adds: `free_leaves` scans raw node indices
`0..leaf_count` (`tree/mod.rs` 272–281), reports the blank PARENTS 1 and 3 as
free leaves, and the adds install `KeyPackage`-bearing leaf nodes at the odd
indices 1 and 3. -/
theorem C2_free_leaves_yields_odd_parent_slots :
    ((t0demo.apply_proposals pidl1 queueC2 []).map (fun r =>
      (r.1.nodes.length, r.1.free_leaves))) = some (9, [1, 3])
  ∧ (((t0demo.apply_proposals pidl1 queueC2 []).bind (fun r1 =>
      r1.1.apply_proposals pidl2 queueC2 [])).map (fun r2 =>
      (r2.1.nodes.length, r2.1.nodeAt 1, r2.1.nodeAt 3)))
      = some (9, Node.new_leaf (some kpF), Node.new_leaf (some kpG)) := by decide

/-- C3 counterexample: the claim asserts that `get_commit_lists()` buckets
preserve insertion order.  `queueC3` receives two update proposals in order
`qpU1, qpU2`; `entriesRev` is a permutation of the map's values — a sequence the
unordered `HashMap::values()` iterator may legally yield — for which the updates
bucket comes out in the opposite of insertion order. -/
theorem C3_counterexample_iteration_order :
    List.Perm entriesRev (queueC3.tuples.map Prod.snd)
  ∧ (get_commit_lists_iter entriesRev).updates
      ≠ [qpU1.proposal.to_proposal_id, qpU2.proposal.to_proposal_id] := by decide

/-- C4: the claim says the (key, nonce) for a generation is independent of the
sequence of `get_secret` calls.  From a fresh ratchet, requesting generations
1 then 2 yields a different pair for generation 2 than requesting 2 directly:
`ratchet_secret` derives with `self.generation`, which is updated only after the
whole forward loop (`tree/sender_ratchet.rs` 73–83, 87–96). -/
theorem C4_forward_derivation_uses_stale_generation :
    ((r0.get_secret 1 cs0).bind (fun p => p.2.get_secret 2 cs0)).map Prod.fst
      = some (Except.ok (SenderRatchet.derive_key_nonce 0 c4_secret_stepwise 2 cs0))
  ∧ (r0.get_secret 2 cs0).map Prod.fst
      = some (Except.ok (SenderRatchet.derive_key_nonce 0 c4_secret_jump 2 cs0))
  ∧ SenderRatchet.derive_key_nonce 0 c4_secret_stepwise 2 cs0
      ≠ SenderRatchet.derive_key_nonce 0 c4_secret_jump 2 cs0 := by decide

/-- C5 counterexample: at `generation = 2^32 − 1` and requested generation
5000, the claim's conditions say TooDistantInThePast (5000 ≤ generation + 1000,
5000 < generation, distance ≥ 5), but the `u32` sum `generation + 1000` wraps to
999 and the code returns TooDistantInTheFuture. -/
theorem C5_counterexample_u32_wrap :
    rBig.get_secret 5000 cs0
      = some (Except.error ASError.TooDistantInTheFuture, rBig)
  ∧ 5000 ≤ rBig.generation + 1000
  ∧ 5000 < rBig.generation
  ∧ 5 ≤ rBig.generation - 5000 := by decide

/-- C6: the claim says `MlsGroup::decrypt` succeeds on a group whose tree has
blank leaves.  On the two-member tree whose second leaf was blanked, the roster
loop of `decrypt` (`group/mls_group/mod.rs` 208–216) hits node index 1 — a node
without a key package — and executes `panic!("Missing key package")`. -/
theorem C6_decrypt_roster_panics_on_blank_tree :
    (treeC6.nodeAt 2).is_blank = true ∧ decrypt_roster treeC6 = none := by decide

/-- C7: the claim says `is_expired()` is true exactly outside the closed
interval `[not_before, not_after]`.  The code returns
`not_before < now && not_after > now` (`extensions.rs` 191–198): true strictly
INSIDE the interval.  At `now = 5 ∈ [0, 10]` it reports expired; at
`now = 20 ∉ [0, 10]` it reports not expired. -/
theorem C7_is_expired_inverted :
    LifetimeExtension.is_expired ⟨0, 10⟩ 5 = true
  ∧ (0 ≤ 5 ∧ 5 ≤ 10)
  ∧ LifetimeExtension.is_expired ⟨0, 10⟩ 20 = false
  ∧ ¬ (20 ≤ 10) := by decide

/-- C9: the claim says all three tag conversions are total onto defined
variants.  `ProposalType::from` is a genuine total match (unknown tag 77 maps to
`Default`), but `ProtocolVersion::from(1)` and `ExtensionType::from(7)` are
`mem::transmute` to values that are not declared discriminants — undefined
behavior, not a defined variant. -/
theorem C9_transmute_enum_casts_undefined :
    ProposalType.fromU8 77 = ProposalType.Default
  ∧ ProtocolVersion.fromU8 1 = none
  ∧ ExtensionType.fromU16 7 = none := by decide

/-- Membership in the updates bucket: exactly the ids of queued update
proposals. -/
theorem mem_commit_lists_updates {es : List (ProposalID × QueuedProposal)}
    {pid : ProposalID} :
    pid ∈ (get_commit_lists_iter es).updates ↔
      ∃ e ∈ es, e.2.proposal.as_update.isSome = true ∧
        pid = e.2.proposal.to_proposal_id := by
  simp only [get_commit_lists_iter, List.mem_filterMap]
  constructor
  · rintro ⟨e, he, hm⟩
    cases hp : e.2.proposal with
    | update u =>
      rw [hp] at hm
      injection hm with hm
      exact ⟨e, he, by rw [hp]; rfl, by rw [hp]; exact hm.symm⟩
    | add u => rw [hp] at hm; exact absurd hm (by simp)
    | remove u => rw [hp] at hm; exact absurd hm (by simp)
  · rintro ⟨e, he, hs, hpid⟩
    refine ⟨e, he, ?_⟩
    cases hp : e.2.proposal with
    | update u => rw [hpid, hp]
    | add u => rw [hp] at hs; exact absurd hs (by simp [Proposal.as_update])
    | remove u => rw [hp] at hs; exact absurd hs (by simp [Proposal.as_update])

/-- Membership in the removes bucket. -/
theorem mem_commit_lists_removes {es : List (ProposalID × QueuedProposal)}
    {pid : ProposalID} :
    pid ∈ (get_commit_lists_iter es).removes ↔
      ∃ e ∈ es, e.2.proposal.as_remove.isSome = true ∧
        pid = e.2.proposal.to_proposal_id := by
  simp only [get_commit_lists_iter, List.mem_filterMap]
  constructor
  · rintro ⟨e, he, hm⟩
    cases hp : e.2.proposal with
    | remove u =>
      rw [hp] at hm
      injection hm with hm
      exact ⟨e, he, by rw [hp]; rfl, by rw [hp]; exact hm.symm⟩
    | add u => rw [hp] at hm; exact absurd hm (by simp)
    | update u => rw [hp] at hm; exact absurd hm (by simp)
  · rintro ⟨e, he, hs, hpid⟩
    refine ⟨e, he, ?_⟩
    cases hp : e.2.proposal with
    | remove u => rw [hpid, hp]
    | add u => rw [hp] at hs; exact absurd hs (by simp [Proposal.as_remove])
    | update u => rw [hp] at hs; exact absurd hs (by simp [Proposal.as_remove])

/-- Membership in the adds bucket. -/
theorem mem_commit_lists_adds {es : List (ProposalID × QueuedProposal)}
    {pid : ProposalID} :
    pid ∈ (get_commit_lists_iter es).adds ↔
      ∃ e ∈ es, e.2.proposal.as_add.isSome = true ∧
        pid = e.2.proposal.to_proposal_id := by
  simp only [get_commit_lists_iter, List.mem_filterMap]
  constructor
  · rintro ⟨e, he, hm⟩
    cases hp : e.2.proposal with
    | add u =>
      rw [hp] at hm
      injection hm with hm
      exact ⟨e, he, by rw [hp]; rfl, by rw [hp]; exact hm.symm⟩
    | update u => rw [hp] at hm; exact absurd hm (by simp)
    | remove u => rw [hp] at hm; exact absurd hm (by simp)
  · rintro ⟨e, he, hs, hpid⟩
    refine ⟨e, he, ?_⟩
    cases hp : e.2.proposal with
    | add u => rw [hpid, hp]
    | update u => rw [hp] at hs; exact absurd hs (by simp [Proposal.as_add])
    | remove u => rw [hp] at hs; exact absurd hs (by simp [Proposal.as_add])

/-- C3 (amended): `get_commit_lists()` partitions the queued proposals into the
three buckets by proposal type: each bucket holds exactly the ProposalIDs of
the queued proposals of its type, listed in the map's (unspecified) iteration
order — a permutation of the corresponding insertion-order bucket.  Insertion
order itself is not preserved (see the counterexample). -/
theorem C3_commit_lists_partition_perm
    (q : ProposalQueue) (entries : List (ProposalID × QueuedProposal))
    (hperm : List.Perm entries (q.tuples.map Prod.snd)) :
    (List.Perm (get_commit_lists_iter entries).updates
      (get_commit_lists_iter (q.tuples.map Prod.snd)).updates
    ∧ List.Perm (get_commit_lists_iter entries).removes
      (get_commit_lists_iter (q.tuples.map Prod.snd)).removes
    ∧ List.Perm (get_commit_lists_iter entries).adds
      (get_commit_lists_iter (q.tuples.map Prod.snd)).adds)
    ∧ (∀ pid, pid ∈ (get_commit_lists_iter entries).updates ↔
        ∃ e ∈ q.tuples.map Prod.snd, e.2.proposal.as_update.isSome = true ∧
          pid = e.2.proposal.to_proposal_id)
    ∧ (∀ pid, pid ∈ (get_commit_lists_iter entries).removes ↔
        ∃ e ∈ q.tuples.map Prod.snd, e.2.proposal.as_remove.isSome = true ∧
          pid = e.2.proposal.to_proposal_id)
    ∧ (∀ pid, pid ∈ (get_commit_lists_iter entries).adds ↔
        ∃ e ∈ q.tuples.map Prod.snd, e.2.proposal.as_add.isSome = true ∧
          pid = e.2.proposal.to_proposal_id) := by
  refine ⟨⟨hperm.filterMap _, hperm.filterMap _, hperm.filterMap _⟩, ?_, ?_, ?_⟩
  · intro pid
    rw [mem_commit_lists_updates]
    constructor
    · rintro ⟨e, he, h⟩; exact ⟨e, hperm.mem_iff.mp he, h⟩
    · rintro ⟨e, he, h⟩; exact ⟨e, hperm.mem_iff.mpr he, h⟩
  · intro pid
    rw [mem_commit_lists_removes]
    constructor
    · rintro ⟨e, he, h⟩; exact ⟨e, hperm.mem_iff.mp he, h⟩
    · rintro ⟨e, he, h⟩; exact ⟨e, hperm.mem_iff.mpr he, h⟩
  · intro pid
    rw [mem_commit_lists_adds]
    constructor
    · rintro ⟨e, he, h⟩; exact ⟨e, hperm.mem_iff.mp he, h⟩
    · rintro ⟨e, he, h⟩; exact ⟨e, hperm.mem_iff.mpr he, h⟩

/-- Witness for the amended C3 theorem at the concrete queue `queueC3` and the
reversed iteration order `entriesRev`. -/
theorem C3_commit_lists_partition_perm_witness :
    (List.Perm (get_commit_lists_iter entriesRev).updates
      (get_commit_lists_iter (queueC3.tuples.map Prod.snd)).updates
    ∧ List.Perm (get_commit_lists_iter entriesRev).removes
      (get_commit_lists_iter (queueC3.tuples.map Prod.snd)).removes
    ∧ List.Perm (get_commit_lists_iter entriesRev).adds
      (get_commit_lists_iter (queueC3.tuples.map Prod.snd)).adds)
    ∧ (∀ pid, pid ∈ (get_commit_lists_iter entriesRev).updates ↔
        ∃ e ∈ queueC3.tuples.map Prod.snd, e.2.proposal.as_update.isSome = true ∧
          pid = e.2.proposal.to_proposal_id)
    ∧ (∀ pid, pid ∈ (get_commit_lists_iter entriesRev).removes ↔
        ∃ e ∈ queueC3.tuples.map Prod.snd, e.2.proposal.as_remove.isSome = true ∧
          pid = e.2.proposal.to_proposal_id)
    ∧ (∀ pid, pid ∈ (get_commit_lists_iter entriesRev).adds ↔
        ∃ e ∈ queueC3.tuples.map Prod.snd, e.2.proposal.as_add.isSome = true ∧
          pid = e.2.proposal.to_proposal_id) :=
  C3_commit_lists_partition_perm queueC3 entriesRev (by decide)

/-! ### Sender-ratchet lemmas -/

namespace SenderRatchet

/-- The forward loop succeeds on a non-empty window and yields the expected
window length. -/
theorem forward_steps_spec {idx gf : Nat} {cs : Ciphersuite} :
    ∀ n ps0, ps0 ≠ [] →
      ∃ ps, forward_steps idx gf cs n ps0 = some ps ∧ ps ≠ [] ∧
        (ps0.length ≤ 5 → ps.length = min (ps0.length + n) 5) := by
  intro n
  induction n with
  | zero =>
    intro ps0 hne
    refine ⟨ps0, rfl, hne, ?_⟩
    intro h5
    omega
  | succ k ih =>
    intro ps0 hne
    have hlen : 1 ≤ ps0.length := List.length_pos.mpr hne
    simp only [forward_steps]
    set ps1 := if ps0.length = OUT_OF_ORDER_TOLERANCE then ps0.drop 1 else ps0 with hps1
    have hOT : OUT_OF_ORDER_TOLERANCE = 5 := rfl
    have hlen1 : ps1.length = if ps0.length = 5 then ps0.length - 1 else ps0.length := by
      rw [hps1, hOT]
      by_cases h : ps0.length = 5
      · rw [if_pos h, if_pos h, List.length_drop]
      · rw [if_neg h, if_neg h]
    have hne1 : ps1 ≠ [] := by
      have : 1 ≤ ps1.length := by
        rw [hlen1]
        by_cases h : ps0.length = 5 <;> simp [h] <;> omega
      exact List.length_pos.mp this
    obtain ⟨last, hlast⟩ : ∃ l, ps1.getLast? = some l := by
      cases hl : ps1.getLast? with
      | none => exact absurd (List.getLast?_eq_none_iff.mp hl) hne1
      | some l => exact ⟨l, rfl⟩
    rw [hlast]
    obtain ⟨ps, hfs, hpsne, hpslen⟩ :=
      ih (ps1 ++ [ratchet_secret idx gf last cs]) (by simp)
    refine ⟨ps, hfs, hpsne, ?_⟩
    intro h5
    have := hpslen (by rw [List.length_append, hlen1]; by_cases h : ps0.length = 5 <;>
      simp [h] <;> omega)
    rw [List.length_append, hlen1] at this
    by_cases h : ps0.length = 5 <;> simp [h] at this <;> omega

/-- Branch equation: the too-far-in-the-future guard. -/
theorem get_secret_future {r : SenderRatchet} {g : Nat} (cs : Ciphersuite)
    (h : (r.generation + MAXIMUM_FORWARD_DISTANCE) % U32_MOD < g) :
    r.get_secret g cs = some (Except.error ASError.TooDistantInTheFuture, r) := by
  unfold get_secret
  rw [if_pos h]

/-- Branch equation: the too-far-in-the-past guard. -/
theorem get_secret_past {r : SenderRatchet} {g : Nat} (cs : Ciphersuite)
    (h1 : ¬ (r.generation + MAXIMUM_FORWARD_DISTANCE) % U32_MOD < g)
    (h2 : g < r.generation ∧ OUT_OF_ORDER_TOLERANCE ≤ r.generation - g) :
    r.get_secret g cs = some (Except.error ASError.TooDistantInThePast, r) := by
  unfold get_secret
  rw [if_neg h1, if_pos h2]

/-- Branch equation: the in-window branch. -/
theorem get_secret_window {r : SenderRatchet} {g : Nat} (cs : Ciphersuite)
    (h1 : ¬ (r.generation + MAXIMUM_FORWARD_DISTANCE) % U32_MOD < g)
    (h2 : ¬ (g < r.generation ∧ OUT_OF_ORDER_TOLERANCE ≤ r.generation - g))
    (h3 : g ≤ r.generation)
    (h4 : (r.generation - g) + 1 ≤ r.past_secrets.length) :
    r.get_secret g cs = some (Except.ok (derive_key_nonce r.index
      (r.past_secrets.get
        ⟨r.past_secrets.length - (r.generation - g) - 1, by omega⟩) g cs), r) := by
  unfold get_secret
  rw [if_neg h1, if_neg h2, if_pos h3, dif_pos h4]

/-- Branch equation: the forward branch, given the loop result and its last
element. -/
theorem get_secret_forward {r : SenderRatchet} {g : Nat} {cs : Ciphersuite}
    {ps : List SymSecret} {secret : SymSecret}
    (h1 : ¬ (r.generation + MAXIMUM_FORWARD_DISTANCE) % U32_MOD < g)
    (h2 : ¬ (g < r.generation ∧ OUT_OF_ORDER_TOLERANCE ≤ r.generation - g))
    (h3 : ¬ g ≤ r.generation)
    (hfs : forward_steps r.index r.generation cs (g - r.generation)
      r.past_secrets = some ps)
    (hlast : ps.getLast? = some secret) :
    r.get_secret g cs = some (Except.ok (derive_key_nonce r.index secret g cs),
      { r with generation := g, past_secrets := ps }) := by
  unfold get_secret
  rw [if_neg h1, if_neg h2, if_neg h3, hfs]
  simp only [Option.bind]
  rw [hlast]

/-- Any non-panicking `get_secret` call preserves the window invariant. -/
theorem get_secret_preserves_invariant {r r' : SenderRatchet} {g : Nat}
    {cs : Ciphersuite} {res : Except ASError ApplicationSecrets}
    (hlen : r.past_secrets.length = min (r.generation + 1) OUT_OF_ORDER_TOLERANCE)
    (hne : r.past_secrets ≠ [])
    (hstep : r.get_secret g cs = some (res, r')) :
    r'.past_secrets.length = min (r'.generation + 1) OUT_OF_ORDER_TOLERANCE
    ∧ r'.past_secrets ≠ [] := by
  by_cases h1 : (r.generation + MAXIMUM_FORWARD_DISTANCE) % U32_MOD < g
  · rw [get_secret_future cs h1] at hstep
    simp only [Option.some.injEq, Prod.mk.injEq] at hstep
    rw [← hstep.2]
    exact ⟨hlen, hne⟩
  · by_cases h2 : g < r.generation ∧ OUT_OF_ORDER_TOLERANCE ≤ r.generation - g
    · rw [get_secret_past cs h1 h2] at hstep
      simp only [Option.some.injEq, Prod.mk.injEq] at hstep
      rw [← hstep.2]
      exact ⟨hlen, hne⟩
    · by_cases h3 : g ≤ r.generation
      · by_cases h4 : (r.generation - g) + 1 ≤ r.past_secrets.length
        · rw [get_secret_window cs h1 h2 h3 h4] at hstep
          simp only [Option.some.injEq, Prod.mk.injEq] at hstep
          rw [← hstep.2]
          exact ⟨hlen, hne⟩
        · exfalso
          simp only [OUT_OF_ORDER_TOLERANCE] at hlen h2
          omega
      · obtain ⟨ps, hfs, hpsne, hpslen⟩ :=
          @forward_steps_spec r.index r.generation cs
            (g - r.generation) r.past_secrets hne
        obtain ⟨secret, hlast⟩ : ∃ l, ps.getLast? = some l := by
          cases hl : ps.getLast? with
          | none => exact absurd (List.getLast?_eq_none_iff.mp hl) hpsne
          | some l => exact ⟨l, rfl⟩
        rw [get_secret_forward h1 h2 h3 hfs hlast] at hstep
        simp only [Option.some.injEq, Prod.mk.injEq] at hstep
        rw [← hstep.2]
        have h5 : r.past_secrets.length ≤ 5 := by
          simp only [OUT_OF_ORDER_TOLERANCE] at hlen
          omega
        have hps := hpslen h5
        refine ⟨?_, hpsne⟩
        show ps.length = min (g + 1) OUT_OF_ORDER_TOLERANCE
        simp only [OUT_OF_ORDER_TOLERANCE] at hlen ⊢
        omega

/-- Under the window invariant, `get_secret` never panics. -/
theorem get_secret_isSome {r : SenderRatchet}
    (hlen : r.past_secrets.length = min (r.generation + 1) OUT_OF_ORDER_TOLERANCE)
    (hne : r.past_secrets ≠ []) (g : Nat) (cs : Ciphersuite) :
    (r.get_secret g cs).isSome = true := by
  by_cases h1 : (r.generation + MAXIMUM_FORWARD_DISTANCE) % U32_MOD < g
  · rw [get_secret_future cs h1]
    rfl
  · by_cases h2 : g < r.generation ∧ OUT_OF_ORDER_TOLERANCE ≤ r.generation - g
    · rw [get_secret_past cs h1 h2]
      rfl
    · by_cases h3 : g ≤ r.generation
      · have h4 : (r.generation - g) + 1 ≤ r.past_secrets.length := by
          simp only [OUT_OF_ORDER_TOLERANCE] at hlen h2
          omega
        rw [get_secret_window cs h1 h2 h3 h4]
        rfl
      · obtain ⟨ps, hfs, hpsne, _⟩ :=
          @forward_steps_spec r.index r.generation cs
            (g - r.generation) r.past_secrets hne
        obtain ⟨secret, hlast⟩ : ∃ l, ps.getLast? = some l := by
          cases hl : ps.getLast? with
          | none => exact absurd (List.getLast?_eq_none_iff.mp hl) hpsne
          | some l => exact ⟨l, rfl⟩
        rw [get_secret_forward h1 h2 h3 hfs hlast]
        rfl

end SenderRatchet

/-- C10: window invariant of the sender ratchet — every state reachable from
`new` satisfies `past_secrets.len() == min(generation + 1, 5)` and has a
non-empty window, and on such states `get_secret` never panics (in particular
the window index of the `g ≤ generation` branch never underflows and the
lookup always finds an element). -/
theorem C10_sender_ratchet_window_invariant (r : SenderRatchet)
    (h : SenderRatchet.Reachable r) :
    r.past_secrets.length = min (r.generation + 1) OUT_OF_ORDER_TOLERANCE
  ∧ r.past_secrets ≠ []
  ∧ ∀ g cs, (r.get_secret g cs).isSome = true := by
  induction h with
  | new idx s =>
    refine ⟨by simp [SenderRatchet.new, OUT_OF_ORDER_TOLERANCE], by simp [SenderRatchet.new], ?_⟩
    intro g cs
    exact SenderRatchet.get_secret_isSome
      (by simp [SenderRatchet.new, OUT_OF_ORDER_TOLERANCE]) (by simp [SenderRatchet.new]) g cs
  | step hr hstep ih =>
    obtain ⟨hlen, hne⟩ := SenderRatchet.get_secret_preserves_invariant ih.1 ih.2.1 hstep
    exact ⟨hlen, hne, fun g cs => SenderRatchet.get_secret_isSome hlen hne g cs⟩

/-- Witness for C10 at the freshly created ratchet. -/
theorem C10_sender_ratchet_window_invariant_witness :
    (SenderRatchet.new 0 (SymSecret.seed 0)).past_secrets.length
      = min ((SenderRatchet.new 0 (SymSecret.seed 0)).generation + 1) OUT_OF_ORDER_TOLERANCE
  ∧ (SenderRatchet.new 0 (SymSecret.seed 0)).past_secrets ≠ []
  ∧ ∀ g cs, ((SenderRatchet.new 0 (SymSecret.seed 0)).get_secret g cs).isSome = true :=
  C10_sender_ratchet_window_invariant _
    (SenderRatchet.Reachable.new 0 (SymSecret.seed 0))

namespace SenderRatchet

/-- An error result determines the state (unchanged) and which guard fired. -/
theorem get_secret_error_inv {r r' : SenderRatchet} {g : Nat} {cs : Ciphersuite}
    {e : ASError} (h : r.get_secret g cs = some (Except.error e, r')) :
    r' = r
    ∧ (e = ASError.TooDistantInTheFuture ↔
        (r.generation + MAXIMUM_FORWARD_DISTANCE) % U32_MOD < g)
    ∧ (e = ASError.TooDistantInThePast ↔
        (¬ (r.generation + MAXIMUM_FORWARD_DISTANCE) % U32_MOD < g ∧
          g < r.generation ∧ OUT_OF_ORDER_TOLERANCE ≤ r.generation - g)) := by
  by_cases h1 : (r.generation + MAXIMUM_FORWARD_DISTANCE) % U32_MOD < g
  · rw [get_secret_future cs h1] at h
    simp only [Option.some.injEq, Prod.mk.injEq, Except.error.injEq] at h
    refine ⟨h.2.symm, ?_, ?_⟩
    · simp [← h.1, h1]
    · simp [← h.1, h1]
  · by_cases h2 : g < r.generation ∧ OUT_OF_ORDER_TOLERANCE ≤ r.generation - g
    · rw [get_secret_past cs h1 h2] at h
      simp only [Option.some.injEq, Prod.mk.injEq, Except.error.injEq] at h
      refine ⟨h.2.symm, ?_, ?_⟩
      · simp [← h.1, h1]
      · simp [← h.1, h1, h2]
    · by_cases h3 : g ≤ r.generation
      · by_cases h4 : (r.generation - g) + 1 ≤ r.past_secrets.length
        · rw [get_secret_window cs h1 h2 h3 h4] at h
          exact absurd h (by simp)
        · exfalso
          unfold get_secret at h
          rw [if_neg h1, if_neg h2, if_pos h3, dif_neg h4] at h
          exact Option.noConfusion h
      · exfalso
        unfold get_secret at h
        rw [if_neg h1, if_neg h2, if_neg h3] at h
        cases hfs : forward_steps r.index r.generation cs (g - r.generation)
            r.past_secrets with
        | none => rw [hfs] at h; exact Option.noConfusion h
        | some ps =>
          rw [hfs] at h
          simp only [Option.some_bind] at h
          cases hlast : ps.getLast? with
          | none => rw [hlast] at h; exact Option.noConfusion h
          | some secret =>
            rw [hlast] at h
            simp only [Option.some_bind, Option.some.injEq, Prod.mk.injEq] at h
            exact Except.noConfusion h.1

/-- `generation` never decreases across a non-panicking call. -/
theorem get_secret_gen_mono {r r' : SenderRatchet} {g : Nat} {cs : Ciphersuite}
    {res : Except ASError ApplicationSecrets}
    (h : r.get_secret g cs = some (res, r')) :
    r.generation ≤ r'.generation := by
  by_cases h1 : (r.generation + MAXIMUM_FORWARD_DISTANCE) % U32_MOD < g
  · rw [get_secret_future cs h1] at h
    simp only [Option.some.injEq, Prod.mk.injEq] at h
    rw [← h.2]
  · by_cases h2 : g < r.generation ∧ OUT_OF_ORDER_TOLERANCE ≤ r.generation - g
    · rw [get_secret_past cs h1 h2] at h
      simp only [Option.some.injEq, Prod.mk.injEq] at h
      rw [← h.2]
    · by_cases h3 : g ≤ r.generation
      · by_cases h4 : (r.generation - g) + 1 ≤ r.past_secrets.length
        · rw [get_secret_window cs h1 h2 h3 h4] at h
          simp only [Option.some.injEq, Prod.mk.injEq] at h
          rw [← h.2]
        · exfalso
          unfold get_secret at h
          rw [if_neg h1, if_neg h2, if_pos h3, dif_neg h4] at h
          exact Option.noConfusion h
      · unfold get_secret at h
        rw [if_neg h1, if_neg h2, if_neg h3] at h
        cases hfs : forward_steps r.index r.generation cs (g - r.generation)
            r.past_secrets with
        | none => rw [hfs] at h; exact Option.noConfusion h
        | some ps =>
          rw [hfs] at h
          simp only [Option.some_bind] at h
          cases hlast : ps.getLast? with
          | none => rw [hlast] at h; exact Option.noConfusion h
          | some secret =>
            rw [hlast] at h
            simp only [Option.some_bind, Option.some.injEq, Prod.mk.injEq] at h
            rw [← h.2]
            simp only
            omega

/-- A successful call leaves `generation` at least at the requested value. -/
theorem get_secret_ok_ge {r r' : SenderRatchet} {g : Nat} {cs : Ciphersuite}
    {res : ApplicationSecrets}
    (h : r.get_secret g cs = some (Except.ok res, r')) :
    g ≤ r'.generation := by
  by_cases h1 : (r.generation + MAXIMUM_FORWARD_DISTANCE) % U32_MOD < g
  · rw [get_secret_future cs h1] at h
    simp only [Option.some.injEq, Prod.mk.injEq] at h
    exact absurd h.1 (by simp)
  · by_cases h2 : g < r.generation ∧ OUT_OF_ORDER_TOLERANCE ≤ r.generation - g
    · rw [get_secret_past cs h1 h2] at h
      simp only [Option.some.injEq, Prod.mk.injEq] at h
      exact absurd h.1 (by simp)
    · by_cases h3 : g ≤ r.generation
      · by_cases h4 : (r.generation - g) + 1 ≤ r.past_secrets.length
        · rw [get_secret_window cs h1 h2 h3 h4] at h
          simp only [Option.some.injEq, Prod.mk.injEq] at h
          rw [← h.2]
          exact h3
        · exfalso
          unfold get_secret at h
          rw [if_neg h1, if_neg h2, if_pos h3, dif_neg h4] at h
          exact Option.noConfusion h
      · unfold get_secret at h
        rw [if_neg h1, if_neg h2, if_neg h3] at h
        cases hfs : forward_steps r.index r.generation cs (g - r.generation)
            r.past_secrets with
        | none => rw [hfs] at h; exact Option.noConfusion h
        | some ps =>
          rw [hfs] at h
          simp only [Option.some_bind] at h
          cases hlast : ps.getLast? with
          | none => rw [hlast] at h; exact Option.noConfusion h
          | some secret =>
            rw [hlast] at h
            simp only [Option.some_bind, Option.some.injEq, Prod.mk.injEq] at h
            rw [← h.2]

/-- `generation` never decreases across any sequence of further calls. -/
theorem later_gen_mono {r1 r2 : SenderRatchet} (h : Later r1 r2) :
    r1.generation ≤ r2.generation := by
  induction h with
  | refl => exact Nat.le_refl _
  | step hl hstep ih => exact Nat.le_trans ih (get_secret_gen_mono hstep)

end SenderRatchet

/-- C5 (amended): the guard conditions of `get_secret`, with the sum
`generation + 1000` computed in `u32` (wrapping) arithmetic as the source does:
TooDistantInTheFuture iff `g > (generation + 1000) mod 2^32`;
TooDistantInThePast iff the future guard did not fire, `g < generation` and
`generation − g ≥ 5`.  Moreover, as long as the generation stays below
`2^32 − 1000` (no wrap), after a successful `get_secret(g)` every later call
with `g' < g − 4` returns TooDistantInThePast. -/
theorem C5_guard_conditions_u32 (r : SenderRatchet) (g : Nat) (cs : Ciphersuite) :
    ((∃ r', r.get_secret g cs = some (Except.error ASError.TooDistantInTheFuture, r'))
      ↔ (r.generation + MAXIMUM_FORWARD_DISTANCE) % U32_MOD < g)
  ∧ ((∃ r', r.get_secret g cs = some (Except.error ASError.TooDistantInThePast, r'))
      ↔ (¬ (r.generation + MAXIMUM_FORWARD_DISTANCE) % U32_MOD < g ∧
          g < r.generation ∧ OUT_OF_ORDER_TOLERANCE ≤ r.generation - g))
  ∧ (∀ res r1, r.get_secret g cs = some (Except.ok res, r1) →
      ∀ r2, SenderRatchet.Later r1 r2 →
        r2.generation + MAXIMUM_FORWARD_DISTANCE < U32_MOD →
        ∀ g' cs', g' + 4 < g →
          r2.get_secret g' cs' = some (Except.error ASError.TooDistantInThePast, r2)) := by
  refine ⟨?_, ?_, ?_⟩
  · constructor
    · rintro ⟨r', hr⟩
      exact ((SenderRatchet.get_secret_error_inv hr).2.1).mp rfl
    · intro hc
      exact ⟨r, SenderRatchet.get_secret_future cs hc⟩
  · constructor
    · rintro ⟨r', hr⟩
      exact ((SenderRatchet.get_secret_error_inv hr).2.2).mp rfl
    · rintro ⟨hc1, hc2, hc3⟩
      exact ⟨r, SenderRatchet.get_secret_past cs hc1 ⟨hc2, hc3⟩⟩
  · intro res r1 hok r2 hlater hbound g' cs' hg'
    have hge : g ≤ r1.generation := SenderRatchet.get_secret_ok_ge hok
    have hmono : r1.generation ≤ r2.generation := SenderRatchet.later_gen_mono hlater
    have hmod : (r2.generation + MAXIMUM_FORWARD_DISTANCE) % U32_MOD
        = r2.generation + MAXIMUM_FORWARD_DISTANCE := Nat.mod_eq_of_lt hbound
    refine SenderRatchet.get_secret_past cs' ?_ ?_
    · rw [hmod]
      simp only [MAXIMUM_FORWARD_DISTANCE]
      omega
    · simp only [OUT_OF_ORDER_TOLERANCE]
      omega

/-- Witness for the amended C5 theorem: from the state with generation 5 a
successful in-window call at generation 5, then a request for generation 0. -/
theorem C5_guard_conditions_u32_witness :
    (⟨0, 5, [SymSecret.seed 0]⟩ : SenderRatchet).get_secret 0 cs0
      = some (Except.error ASError.TooDistantInThePast,
          (⟨0, 5, [SymSecret.seed 0]⟩ : SenderRatchet)) :=
  (C5_guard_conditions_u32 ⟨0, 5, [SymSecret.seed 0]⟩ 5 cs0).2.2
    (SenderRatchet.derive_key_nonce 0 (SymSecret.seed 0) 5 cs0)
    ⟨0, 5, [SymSecret.seed 0]⟩ (by decide)
    ⟨0, 5, [SymSecret.seed 0]⟩ (SenderRatchet.Later.refl _) (by decide) 0 cs0 (by decide)

/-! ### C8: resolution cover -/

namespace RatchetTree

theorem nodeAt_eq_of_get? {t : RatchetTree} {i : Nat} {nd : Node}
    (h : t.nodes.get? i = some nd) : t.nodeAt i = nd := by
  unfold nodeAt
  rw [List.getD_eq_getElem?_getD, ← List.get?_eq_getElem?, h]
  rfl

theorem nodes_get?_eq_nodeAt {t : RatchetTree} {i : Nat} (h : i < t.nodes.length) :
    t.nodes.get? i = some (t.nodeAt i) := by
  cases hg : t.nodes.get? i with
  | none =>
    rw [List.get?_eq_none] at hg
    omega
  | some nd =>
    rw [nodeAt_eq_of_get? hg]

/-- `resolve` on a blank leaf is empty. -/
theorem resolve_leaf_blank {t : RatchetTree} {i : Nat} {nd : Node}
    (hget : t.nodes.get? i = some nd)
    (htype : nd.node_type = NodeType.Leaf) (hblank : nd.is_blank = true) :
    t.resolve i = [] := by
  conv_lhs => unfold resolve
  rw [hget]
  simp [htype, hblank]

/-- `resolve` on a non-blank leaf is the leaf itself. -/
theorem resolve_leaf_nonblank {t : RatchetTree} {i : Nat} {nd : Node}
    (hget : t.nodes.get? i = some nd)
    (htype : nd.node_type = NodeType.Leaf) (hblank : nd.is_blank = false) :
    t.resolve i = [i] := by
  conv_lhs => unfold resolve
  rw [hget]
  simp [htype, hblank]

/-- `resolve` on a non-blank parent is the parent followed by its unmerged
leaves. -/
theorem resolve_parent_nonblank {t : RatchetTree} {i : Nat} {nd : Node}
    (hget : t.nodes.get? i = some nd)
    (htype : nd.node_type = NodeType.Parent) (hblank : nd.is_blank = false) :
    t.resolve i = i :: (nd.node.getD default).unmerged_leaves := by
  conv_lhs => unfold resolve
  rw [hget]
  simp [htype, hblank]

/-- `resolve` on a blank parent concatenates the children's resolutions. -/
theorem resolve_parent_blank {t : RatchetTree} {i : Nat} {nd : Node}
    (hget : t.nodes.get? i = some nd)
    (htype : nd.node_type = NodeType.Parent) (hblank : nd.is_blank = true)
    (hodd : i % 2 = 1) :
    t.resolve i = t.resolve (left i) ++ t.resolve (right i t.leaf_count) := by
  conv_lhs => unfold resolve
  rw [hget]
  simp [htype, hblank, hodd]

end RatchetTree

theorem subtree_leaves_even {n i : Nat} (h : i % 2 = 0) : subtree_leaves n i = [i] := by
  unfold subtree_leaves
  rw [dif_neg (by omega)]

theorem subtree_leaves_odd {n i : Nat} (h : i % 2 = 1) :
    subtree_leaves n i = subtree_leaves n (left i) ++ subtree_leaves n (right i n) := by
  conv_lhs => unfold subtree_leaves
  rw [dif_pos h]

/-- For a tree with an odd number of nodes, `node_width (leaf_count)` recovers
the node count. -/
theorem node_width_leaf_count {t : RatchetTree} (h : t.nodes.length % 2 = 1) :
    node_width t.leaf_count = t.nodes.length := by
  unfold node_width RatchetTree.leaf_count
  omega

/-- Leaf (even-index) case of the cover property. -/
theorem resolve_cover_even (t : RatchetTree)
    (htype : ∀ i, i < t.nodes.length →
      ((t.nodeAt i).node_type = if i % 2 = 0 then NodeType.Leaf else NodeType.Parent))
    {i : Nat} (hi : i < t.nodes.length) (heven : i % 2 = 0) :
    (∀ r ∈ t.resolve i, r < t.nodes.length ∧ (t.nodeAt r).is_blank = false)
    ∧ (∀ leaf ∈ subtree_leaves t.leaf_count i, (t.nodeAt leaf).is_blank = false →
        ∃ r ∈ t.resolve i, leaf ∈ subtree_leaves t.leaf_count r) := by
  have hget := RatchetTree.nodes_get?_eq_nodeAt hi
  have hty : (t.nodeAt i).node_type = NodeType.Leaf := by
    rw [htype i hi, if_pos heven]
  by_cases hblank : (t.nodeAt i).is_blank = true
  · constructor
    · intro r hr
      rw [RatchetTree.resolve_leaf_blank hget hty hblank] at hr
      exact absurd hr (List.not_mem_nil r)
    · intro leaf hl hnb
      rw [subtree_leaves_even heven] at hl
      have hleq : leaf = i := by simpa using hl
      rw [hleq] at hnb
      rw [hnb] at hblank
      exact Bool.noConfusion hblank
  · have hnb : (t.nodeAt i).is_blank = false := by
      cases hb : (t.nodeAt i).is_blank
      · rfl
      · exact absurd hb hblank
    constructor
    · intro r hr
      rw [RatchetTree.resolve_leaf_nonblank hget hty hnb] at hr
      have hreq : r = i := by simpa using hr
      rw [hreq]
      exact ⟨hi, hnb⟩
    · intro leaf hl _
      rw [subtree_leaves_even heven] at hl
      have hleq : leaf = i := by simpa using hl
      refine ⟨i, ?_, ?_⟩
      · rw [RatchetTree.resolve_leaf_nonblank hget hty hnb]
        exact List.mem_singleton.mpr rfl
      · rw [subtree_leaves_even heven, hleq]
        exact List.mem_singleton.mpr rfl

/-- Cover property, by induction on a bound of the node's level. -/
theorem resolve_cover_aux (t : RatchetTree) (hwf : WellFormedTree t) :
    ∀ k i, i < t.nodes.length → level i ≤ k →
      ((∀ r ∈ t.resolve i, r < t.nodes.length ∧ (t.nodeAt r).is_blank = false)
       ∧ (∀ leaf ∈ subtree_leaves t.leaf_count i, (t.nodeAt leaf).is_blank = false →
            ∃ r ∈ t.resolve i, leaf ∈ subtree_leaves t.leaf_count r)) := by
  obtain ⟨hoddlen, htype, hleafpay, hparpay, hunm⟩ := hwf
  intro k
  induction k with
  | zero =>
    intro i hi hlev
    have heven : i % 2 = 0 := by
      rcases Nat.mod_two_eq_zero_or_one i with h | h
      · exact h
      · exact absurd hlev (by have := level_pos h; omega)
    exact resolve_cover_even t htype hi heven
  | succ k ih =>
    intro i hi hlev
    rcases Nat.mod_two_eq_zero_or_one i with heven | hoddi
    · exact resolve_cover_even t htype hi heven
    · have hget := RatchetTree.nodes_get?_eq_nodeAt hi
      have hty : (t.nodeAt i).node_type = NodeType.Parent := by
        rw [htype i hi, if_neg (by omega)]
      by_cases hblank : (t.nodeAt i).is_blank = true
      · -- blank parent: both functions recurse to the children
        have hwidth : node_width t.leaf_count = t.nodes.length :=
          node_width_leaf_count hoddlen
        have hiL : left i < t.nodes.length := Nat.lt_trans (left_lt_self hoddi) hi
        have hiR : right i t.leaf_count < t.nodes.length := by
          have hr := right_lt (x := i) (n := t.leaf_count) hoddi
            (by rw [hwidth]; exact hoddlen) (by rw [hwidth]; exact hi)
          rw [hwidth] at hr
          exact hr
        have hlevL : level (left i) ≤ k := by
          have := level_left hoddi
          omega
        have hlevR : level (right i t.leaf_count) ≤ k := by
          have := level_right_lt (n := t.leaf_count) hoddi
          omega
        obtain ⟨eL, cL⟩ := ih (left i) hiL hlevL
        obtain ⟨eR, cR⟩ := ih (right i t.leaf_count) hiR hlevR
        have hres := RatchetTree.resolve_parent_blank hget hty hblank hoddi
        have hsub := subtree_leaves_odd (n := t.leaf_count) hoddi
        constructor
        · intro r hr
          rw [hres] at hr
          rcases List.mem_append.mp hr with h | h
          · exact eL r h
          · exact eR r h
        · intro leaf hl hnb
          rw [hsub] at hl
          rcases List.mem_append.mp hl with h | h
          · obtain ⟨r, hrmem, hrsub⟩ := cL leaf h hnb
            exact ⟨r, by rw [hres]; exact List.mem_append.mpr (Or.inl hrmem), hrsub⟩
          · obtain ⟨r, hrmem, hrsub⟩ := cR leaf h hnb
            exact ⟨r, by rw [hres]; exact List.mem_append.mpr (Or.inr hrmem), hrsub⟩
      · have hnb : (t.nodeAt i).is_blank = false := by
          cases hb : (t.nodeAt i).is_blank
          · rfl
          · exact absurd hb hblank
        have hres := RatchetTree.resolve_parent_nonblank hget hty hnb
        constructor
        · intro r hr
          rw [hres] at hr
          rcases List.mem_cons.mp hr with h | h
          · rw [h]
            exact ⟨hi, hnb⟩
          · have hu := hunm i hi hoddi hnb r h
            exact ⟨hu.1, hu.2.2⟩
        · intro leaf hl _
          exact ⟨i, by rw [hres]; exact List.mem_cons_self i _, hl⟩

/-- C8: on a well-formed tree, `resolve` follows the four defining cases — a
non-blank leaf resolves to itself, a blank leaf to the empty list, a non-blank
parent to itself followed by its unmerged leaves, a blank parent to the
concatenation of the children's resolutions — its result lists only in-range
non-blank node indices, and every non-blank leaf of the subtree rooted at `i`
lies in the subtree of some element of `resolve i`. -/
theorem C8_resolve_cover (t : RatchetTree) (hwf : WellFormedTree t) (i : Nat)
    (hi : i < t.nodes.length) :
    ((t.nodeAt i).node_type = NodeType.Leaf → (t.nodeAt i).is_blank = false →
        t.resolve i = [i])
  ∧ ((t.nodeAt i).node_type = NodeType.Leaf → (t.nodeAt i).is_blank = true →
        t.resolve i = [])
  ∧ ((t.nodeAt i).node_type = NodeType.Parent → (t.nodeAt i).is_blank = false →
        t.resolve i = i :: ((t.nodeAt i).node.getD default).unmerged_leaves)
  ∧ ((t.nodeAt i).node_type = NodeType.Parent → (t.nodeAt i).is_blank = true →
        t.resolve i = t.resolve (left i) ++ t.resolve (right i t.leaf_count))
  ∧ (∀ r ∈ t.resolve i, r < t.nodes.length ∧ (t.nodeAt r).is_blank = false)
  ∧ (∀ leaf ∈ subtree_leaves t.leaf_count i, (t.nodeAt leaf).is_blank = false →
        ∃ r ∈ t.resolve i, leaf ∈ subtree_leaves t.leaf_count r) := by
  have hget := RatchetTree.nodes_get?_eq_nodeAt hi
  refine ⟨?_, ?_, ?_, ?_, ?_, ?_⟩
  · intro hty hnb
    exact RatchetTree.resolve_leaf_nonblank hget hty hnb
  · intro hty hb
    exact RatchetTree.resolve_leaf_blank hget hty hb
  · intro hty hnb
    exact RatchetTree.resolve_parent_nonblank hget hty hnb
  · intro hty hb
    have hoddi : i % 2 = 1 := by
      rcases Nat.mod_two_eq_zero_or_one i with h | h
      · have hL := hwf.2.1 i hi
        rw [if_pos h] at hL
        rw [hL] at hty
        exact NodeType.noConfusion hty
      · exact h
    exact RatchetTree.resolve_parent_blank hget hty hb hoddi
  · exact (resolve_cover_aux t hwf (level i) i hi (Nat.le_refl _)).1
  · exact (resolve_cover_aux t hwf (level i) i hi (Nat.le_refl _)).2

/-- Witness for C8 at the concrete tree `treeC6` (one non-blank leaf, one blank
parent, one blank leaf) and the blank parent index 1. -/
theorem C8_resolve_cover_witness :
    ((treeC6.nodeAt 1).node_type = NodeType.Leaf → (treeC6.nodeAt 1).is_blank = false →
        treeC6.resolve 1 = [1])
  ∧ ((treeC6.nodeAt 1).node_type = NodeType.Leaf → (treeC6.nodeAt 1).is_blank = true →
        treeC6.resolve 1 = [])
  ∧ ((treeC6.nodeAt 1).node_type = NodeType.Parent → (treeC6.nodeAt 1).is_blank = false →
        treeC6.resolve 1 = 1 :: ((treeC6.nodeAt 1).node.getD default).unmerged_leaves)
  ∧ ((treeC6.nodeAt 1).node_type = NodeType.Parent → (treeC6.nodeAt 1).is_blank = true →
        treeC6.resolve 1 = treeC6.resolve (left 1) ++ treeC6.resolve (right 1 treeC6.leaf_count))
  ∧ (∀ r ∈ treeC6.resolve 1, r < treeC6.nodes.length ∧ (treeC6.nodeAt r).is_blank = false)
  ∧ (∀ leaf ∈ subtree_leaves treeC6.leaf_count 1, (treeC6.nodeAt leaf).is_blank = false →
        ∃ r ∈ treeC6.resolve 1, leaf ∈ subtree_leaves treeC6.leaf_count r) :=
  C8_resolve_cover treeC6 (by decide) 1 (by decide)

end Maelstrom
